import Mathlib

set_option maxHeartbeats 1000000

/-!
Verification development for the sentence-to-MP3 tool (`src/streamlit_app.py`).
Strings are modelled as `List Char`; each Python helper is translated into an
executable Lean function below, followed by the theorems about them.
-/

/-- Python `\s` / `str.strip()` whitespace for the ASCII range. -/
def pySpace (c : Char) : Bool :=
  c == ' ' || c == '\t' || c == '\n' || c == '\r' || c == '\x0b' || c == '\x0c'

/-- The terminal punctuation class `[\.!?]` of `SENT_SPLIT`. -/
def isPunct (c : Char) : Bool :=
  c == '.' || c == '!' || c == '?'

def dquoteChar : Char := Char.ofNat 34

def squoteChar : Char := Char.ofNat 39

/-- The closing quote/bracket class `["')\]]` of `SENT_SPLIT`. -/
def isQuote (c : Char) : Bool :=
  c == dquoteChar || c == squoteChar || c == ')' || c == ']'

/-- Python `str.strip(chars)`: drop characters satisfying `p` from both ends. -/
def pyStripBy (p : Char → Bool) (l : List Char) : List Char :=
  ((l.dropWhile p).reverse.dropWhile p).reverse

/-- Python `str.strip()` (no arguments): strip whitespace from both ends. -/
def pyStrip (l : List Char) : List Char := pyStripBy pySpace l

/-- Python `str.rstrip()`: strip trailing whitespace. -/
def pyRstrip (l : List Char) : List Char := (l.reverse.dropWhile pySpace).reverse

/-- `re.sub(r'\s+', ' ', ·)`: collapse each maximal whitespace run to one space.
The flag records whether we are inside a run whose space was already emitted. -/
def collapseWSAux : Bool → List Char → List Char
  | _, [] => []
  | inRun, c :: rest =>
    if pySpace c then
      if inRun then collapseWSAux true rest
      else ' ' :: collapseWSAux true rest
    else c :: collapseWSAux false rest

/-- Line 25: `text = re.sub(r'\s+', ' ', text.strip())`. -/
def normalizeWS (l : List Char) : List Char := collapseWSAux false (pyStrip l)

/-- The lookahead `(?=\s+|$)`: at end of string or before a whitespace char. -/
def boundary : List Char → Bool
  | [] => true
  | c :: _ => pySpace c

/-- Greedy `(?:["')\]]+)?` with backtracking: the largest number `j` of closing
quotes/brackets (within the maximal run) after which the lookahead holds. -/
def bestQuote (rest : List Char) : Option Nat :=
  (List.range ((rest.takeWhile isQuote).length + 1)).reverse.find?
    (fun j => boundary (rest.drop j))

/-- One `SENT_SPLIT` match attempt: lazy `.*?` extends until the first terminal
punctuation whose quote-extension reaches a boundary; returns the matched span
(group `sent`) and the remaining text. `none` when no further match exists. -/
def findFirstMatch : List Char → Option (List Char × List Char)
  | [] => none
  | c :: rest =>
    if isPunct c then
      match bestQuote rest with
      | some j => some (c :: rest.take j, rest.drop j)
      | none =>
        match findFirstMatch rest with
        | some (m, rem) => some (c :: m, rem)
        | none => none
    else
      match findFirstMatch rest with
      | some (m, rem) => some (c :: m, rem)
      | none => none

/-- Fueled `SENT_SPLIT.finditer`: each match consumes at least one character,
so fuel `l.length` is always enough. -/
def findAllF : Nat → List Char → List (List Char)
  | 0, _ => []
  | fuel + 1, l =>
    match findFirstMatch l with
    | none => []
    | some (m, rem) => m :: findAllF fuel rem

/-- `[m.group("sent") for m in SENT_SPLIT.finditer(text)]` (before `.strip()`). -/
def findAll (l : List Char) : List (List Char) := findAllF l.length l

/-- Python `str.rfind(sub)`: the largest start index of an occurrence. -/
def pyRfindIdx (t sub : List Char) : Option Nat :=
  (List.range (t.length + 1)).reverse.find? (fun i => sub.isPrefixOf (t.drop i))

/-- Lines 28-33: recover the trailing fragment after the last matched sentence
(located via `rfind`, mirroring the source), or fall back to the whole text.
A negative `rfind` result is `-1` as in Python; the slice start is clamped via
`Int.toNat` (it is never negative here because the needle is never empty). -/
def splitTail (t : List Char) (sents : List (List Char)) : List (List Char) :=
  match sents.getLast? with
  | some lastS =>
    let idx : Int :=
      match pyRfindIdx t lastS with
      | some i => (i : Int)
      | none => -1
    let tail := t.drop (idx + (lastS.length : Int)).toNat
    if tail ≠ [] ∧ pyStrip tail ≠ [] then sents ++ [pyStrip tail] else sents
  | none => if t ≠ [] then [t] else []

/-- Lines 23-35: `split_sentences`. -/
def split_sentences (text : List Char) : List (List Char) :=
  (splitTail (normalizeWS text) ((findAll (normalizeWS text)).map pyStrip)).filter
    (fun s => !s.isEmpty)

/-- The character class `[\\/*?:"<>|]` replaced by `_` (line 41). -/
def illegalChar (c : Char) : Bool :=
  c == '\\' || c == '/' || c == '*' || c == '?' || c == ':' || c == dquoteChar ||
    c == '<' || c == '>' || c == '|'

/-- The control-character class `[\x00-\x1f]` removed at line 43. -/
def ctrlChar (c : Char) : Bool := decide (c.toNat ≤ 31)

/-- Lines 38-52: `sanitize_filename`. -/
def sanitize_filename (s : List Char) (max_len : Nat) : List Char :=
  let s1 := s.map (fun c => if illegalChar c then '_' else c)
  let s2 := s1.filter (fun c => !ctrlChar c)
  let s3 := pyStripBy (fun c => c == '.') (pyStrip s2)
  let s4 := if s3 = [] then "sentence".data else s3
  if max_len < s4.length then pyRstrip (s4.take max_len) ++ ['…'] else s4

/-- Fueled decimal rendering, one digit per fuel unit. -/
def natToCharsF : Nat → Nat → List Char
  | 0, _ => []
  | fuel + 1, n =>
    if n < 10 then [Nat.digitChar n]
    else natToCharsF fuel (n / 10) ++ [Nat.digitChar (n % 10)]

/-- Decimal rendering of `n`, as produced by the Python f-string `f"{n}"`. -/
def natToChars (n : Nat) : List Char := natToCharsF (n + 1) n

/-- The candidate `f"{stem} ({n})"` of line 62. -/
def mkCandidate (stem : List Char) (n : Nat) : List Char :=
  stem ++ [' ', '('] ++ natToChars n ++ [')']

/-- The `while True` probing loop of lines 59-66, fueled; `existing.card + 1`
probes always suffice (proved below), so the fuel-0 default is unreachable. -/
def probe (existing : Finset (List Char)) (stem : List Char) :
    Nat → Nat → Finset (List Char) × List Char
  | 0, n => (insert (mkCandidate stem n) existing, mkCandidate stem n)
  | fuel + 1, n =>
    if mkCandidate stem n ∈ existing then probe existing stem fuel (n + 1)
    else (insert (mkCandidate stem n) existing, mkCandidate stem n)

/-- Lines 54-66: `ensure_unique_name`, with the mutated `set` made explicit as
a returned `Finset`. -/
def ensure_unique_name (existing : Finset (List Char)) (base_name : List Char) :
    Finset (List Char) × List Char :=
  if base_name ∈ existing then probe existing base_name (existing.card + 1) 2
  else (insert base_name existing, base_name)

/-- Feeding a sequence of base names through `ensure_unique_name` against one
shared used-names set, as `synth_all` does (lines 76-80). -/
def allocate (used : Finset (List Char)) : List (List Char) → List (List Char)
  | [] => []
  | b :: bs =>
    (ensure_unique_name used b).2 :: allocate (ensure_unique_name used b).1 bs

/-- Outcome of one `synth_to_mp3` call: the `edge_tts`/`asyncio.wait_for` side
is external, so it is abstracted as an oracle outcome per call; `timeout` is
the `asyncio.TimeoutError` raised when the 30-second bound expires. -/
inductive SynthOutcome where
  | ok : SynthOutcome
  | timeout : SynthOutcome
  | failed : List Char → SynthOutcome
deriving DecidableEq

inductive SynthResult where
  | timeoutErr : SynthResult
  | synthErr : List Char → SynthResult
  | done : List (List Char × List Char) → SynthResult
deriving DecidableEq

inductive RunResult where
  | emptyInput : RunResult
  | timeoutError : RunResult
  | synthError : List Char → RunResult
  | success : List (List Char × List Char) → RunResult
deriving DecidableEq

/-- `os.path.basename` for POSIX paths: the part after the last `/`. -/
def basename (l : List Char) : List Char :=
  (l.reverse.takeWhile (fun c => c != '/')).reverse

/-- Lines 74-84: `synth_all`, sequentially synthesizing each sentence; the
`i`-th call's outcome comes from the oracle, and the first exception aborts
the loop exactly as an uncaught Python exception would. -/
def synthAllGo (oracle : Nat → SynthOutcome) :
    Finset (List Char) → Nat → List (List Char) → SynthResult
  | _, _, [] => SynthResult.done []
  | used, i, s :: rest =>
    let r := ensure_unique_name used (sanitize_filename s 80)
    match oracle i with
    | SynthOutcome.timeout => SynthResult.timeoutErr
    | SynthOutcome.failed msg => SynthResult.synthErr msg
    | SynthOutcome.ok =>
      match synthAllGo oracle r.1 (i + 1) rest with
      | SynthResult.done fs => SynthResult.done ((r.2 ++ ".mp3".data, s) :: fs)
      | e => e

/-- Lines 141-162: the `Generate MP3 & ZIP` handler. On `asyncio.TimeoutError`
the handler reports the timeout and `st.stop()`s before the ZIP is built, so
only the `done` branch ever constructs an archive. -/
def run_model (oracle : Nat → SynthOutcome) (text : List Char) : RunResult :=
  if split_sentences text = [] then RunResult.emptyInput
  else
    match synthAllGo oracle ∅ 0 (split_sentences text) with
    | SynthResult.timeoutErr => RunResult.timeoutError
    | SynthResult.synthErr m => RunResult.synthError m
    | SynthResult.done files =>
      RunResult.success (files.map (fun fs => (basename fs.1, fs.2)))

/-- `" ".join(...)` used to state the idempotence property. -/
def joinSpace (ls : List (List Char)) : List Char := List.intercalate [' '] ls

/-- The first character, if any, does not satisfy `p`. -/
def headNotP (p : Char → Bool) (l : List Char) : Prop :=
  ∀ c, l.head? = some c → p c = false

/-- The last character, if any, does not satisfy `p`. -/
def lastNotP (p : Char → Bool) (l : List Char) : Prop :=
  ∀ c, l.getLast? = some c → p c = false

/-- No two adjacent characters are both whitespace. -/
def okRun : List Char → Bool
  | a :: b :: rest => (!(pySpace a && pySpace b)) && okRun (b :: rest)
  | _ => true

/-- Decimal parsing, a left inverse of `natToChars` used for injectivity. -/
def charsToNat (l : List Char) : Nat :=
  l.foldl (fun a c => 10 * a + (c.toNat - 48)) 0

theorem bool_eq_false {b : Bool} (h : ¬b = true) : b = false := by
  cases b
  · rfl
  · exact absurd rfl h

theorem head_dropWhile_not (p : Char → Bool) (l : List Char) :
    headNotP p (l.dropWhile p) := by
  induction l with
  | nil => intro c h; simp [List.dropWhile] at h
  | cons a l ih =>
    by_cases hpa : p a = true
    · intro c h
      rw [List.dropWhile_cons, if_pos hpa] at h
      exact ih c h
    · intro c h
      rw [List.dropWhile_cons, if_neg hpa] at h
      simp only [List.head?_cons, Option.some.injEq] at h
      subst h
      exact bool_eq_false hpa

theorem dropWhile_eq_self_of_headNot (p : Char → Bool) (l : List Char)
    (h : headNotP p l) : l.dropWhile p = l := by
  cases l with
  | nil => rfl
  | cons a l =>
    have ha := h a rfl
    rw [List.dropWhile_cons, if_neg (by simp [ha])]

theorem pyStripBy_eq_self (p : Char → Bool) (l : List Char)
    (h1 : headNotP p l) (h2 : lastNotP p l) : pyStripBy p l = l := by
  unfold pyStripBy
  rw [dropWhile_eq_self_of_headNot p l h1]
  have hrev : headNotP p l.reverse := by
    intro c hc
    rw [List.head?_reverse] at hc
    exact h2 c hc
  rw [dropWhile_eq_self_of_headNot p l.reverse hrev, List.reverse_reverse]

theorem pyStripBy_front_dropWhile (p : Char → Bool) (l : List Char) :
    pyStripBy p l <+: l.dropWhile p := by
  unfold pyStripBy
  have h : List.dropWhile p (l.dropWhile p).reverse <:+ (l.dropWhile p).reverse :=
    List.dropWhile_suffix p
  have h2 := List.reverse_prefix.mpr h
  rwa [List.reverse_reverse] at h2

theorem pyStripBy_within (p : Char → Bool) (l : List Char) : pyStripBy p l <:+: l :=
  (pyStripBy_front_dropWhile p l).isInfix.trans (List.dropWhile_suffix p).isInfix

theorem pyStripBy_last_not (p : Char → Bool) (l : List Char) :
    lastNotP p (pyStripBy p l) := by
  intro c hc
  unfold pyStripBy at hc
  rw [List.getLast?_reverse] at hc
  exact head_dropWhile_not p _ c hc

theorem headNot_of_pref (p : Char → Bool) {x y : List Char} (hxy : x <+: y)
    (h : headNotP p y) : headNotP p x := by
  intro c hc
  obtain ⟨t, rfl⟩ := hxy
  apply h c
  rw [List.head?_append_of_ne_nil]
  · exact hc
  · intro hx
    subst hx
    simp at hc

theorem pyStripBy_head_not (p : Char → Bool) (l : List Char) :
    headNotP p (pyStripBy p l) :=
  headNot_of_pref p (pyStripBy_front_dropWhile p l) (head_dropWhile_not p l)

theorem pyStripBy_idem (p : Char → Bool) (l : List Char) :
    pyStripBy p (pyStripBy p l) = pyStripBy p l :=
  pyStripBy_eq_self p _ (pyStripBy_head_not p l) (pyStripBy_last_not p l)

theorem pyStripBy_ne_nil (p : Char → Bool) {l : List Char} {c : Char}
    (hc : c ∈ l) (hp : p c = false) : pyStripBy p l ≠ [] := by
  intro hnil
  unfold pyStripBy at hnil
  rw [List.reverse_eq_nil_iff, List.dropWhile_eq_nil_iff] at hnil
  have hall : ∀ x ∈ l.dropWhile p, p x = true := by
    intro x hx
    exact hnil x (by simpa using hx)
  have hl : ∀ x ∈ l, p x = true := by
    intro x hx
    rw [← List.takeWhile_append_dropWhile p l] at hx
    rcases List.mem_append.mp hx with h | h
    · exact List.mem_takeWhile_imp h
    · exact hall x h
  rw [hl c hc] at hp
  cases hp

theorem collapse_cons_space (flag : Bool) (a : Char) (l : List Char)
    (ha : pySpace a = true) :
    collapseWSAux flag (a :: l) =
      if flag then collapseWSAux true l else ' ' :: collapseWSAux true l := by
  simp only [collapseWSAux, if_pos ha]

theorem collapse_cons_nospace (flag : Bool) (a : Char) (l : List Char)
    (ha : pySpace a = false) :
    collapseWSAux flag (a :: l) = a :: collapseWSAux false l := by
  simp only [collapseWSAux, ha]
  rw [if_neg (by simp)]

theorem collapse_wsOnly (l : List Char) :
    ∀ (flag : Bool) (c : Char), c ∈ collapseWSAux flag l → pySpace c = true → c = ' ' := by
  induction l with
  | nil => intro flag c hc; simp [collapseWSAux] at hc
  | cons a l ih =>
    intro flag c hc hcs
    by_cases ha : pySpace a = true
    · rw [collapse_cons_space flag a l ha] at hc
      by_cases hf : flag = true
      · rw [hf, if_pos rfl] at hc
        exact ih true c hc hcs
      · rw [if_neg hf] at hc
        rcases List.mem_cons.mp hc with rfl | hc'
        · rfl
        · exact ih true c hc' hcs
    · rw [collapse_cons_nospace flag a l (bool_eq_false ha)] at hc
      rcases List.mem_cons.mp hc with rfl | hc'
      · rw [hcs] at ha
        exact absurd rfl ha
      · exact ih false c hc' hcs

theorem collapse_true_head (l : List Char) : headNotP pySpace (collapseWSAux true l) := by
  induction l with
  | nil => intro c hc; simp [collapseWSAux] at hc
  | cons a l ih =>
    by_cases ha : pySpace a = true
    · rw [collapse_cons_space true a l ha, if_pos rfl]
      exact ih
    · rw [collapse_cons_nospace true a l (bool_eq_false ha)]
      intro c hc
      simp only [List.head?_cons, Option.some.injEq] at hc
      subst hc
      exact bool_eq_false ha

theorem collapse_false_head (l : List Char) (h : headNotP pySpace l) :
    headNotP pySpace (collapseWSAux false l) := by
  cases l with
  | nil => intro c hc; simp [collapseWSAux] at hc
  | cons a l =>
    have ha := h a rfl
    rw [collapse_cons_nospace false a l ha]
    intro c hc
    simp only [List.head?_cons, Option.some.injEq] at hc
    subst hc
    exact ha

theorem collapse_false_ne_nil (l : List Char) (h : l ≠ []) :
    collapseWSAux false l ≠ [] := by
  cases l with
  | nil => exact absurd rfl h
  | cons a l =>
    by_cases ha : pySpace a = true
    · rw [collapse_cons_space false a l ha, if_neg (by simp)]
      simp
    · rw [collapse_cons_nospace false a l (bool_eq_false ha)]
      simp

theorem collapse_true_eq_nil_iff (l : List Char) :
    collapseWSAux true l = [] ↔ ∀ c ∈ l, pySpace c = true := by
  induction l with
  | nil => simp [collapseWSAux]
  | cons a l ih =>
    by_cases ha : pySpace a = true
    · rw [collapse_cons_space true a l ha, if_pos rfl]
      simp only [List.mem_cons]
      constructor
      · intro h c hc
        rcases hc with rfl | hc'
        · exact ha
        · exact ih.mp h c hc'
      · intro h
        exact ih.mpr (fun c hc => h c (Or.inr hc))
    · rw [collapse_cons_nospace true a l (bool_eq_false ha)]
      constructor
      · intro h
        cases h
      · intro h
        exact absurd (h a (List.mem_cons_self a l)) ha

theorem okRun_cons_of_head (a : Char) (x : List Char) (ha : pySpace a = false)
    (hx : okRun x = true) : okRun (a :: x) = true := by
  cases x with
  | nil => rfl
  | cons b rest => simp [okRun, ha, hx]

theorem okRun_cons_space (a : Char) (x : List Char) (hx1 : headNotP pySpace x)
    (hx : okRun x = true) : okRun (a :: x) = true := by
  cases x with
  | nil => rfl
  | cons b rest =>
    have hb := hx1 b rfl
    simp [okRun, hb, hx]

theorem okRun_tail (a : Char) (x : List Char) (h : okRun (a :: x) = true) :
    okRun x = true := by
  cases x with
  | nil => rfl
  | cons b rest =>
    simp only [okRun, Bool.and_eq_true] at h
    exact h.2

theorem collapse_okRun (l : List Char) : ∀ flag, okRun (collapseWSAux flag l) = true := by
  induction l with
  | nil => intro flag; simp [collapseWSAux, okRun]
  | cons a l ih =>
    intro flag
    by_cases ha : pySpace a = true
    · rw [collapse_cons_space flag a l ha]
      by_cases hf : flag = true
      · rw [hf, if_pos rfl]
        exact ih true
      · rw [if_neg hf]
        exact okRun_cons_space ' ' _ (collapse_true_head l) (ih true)
    · rw [collapse_cons_nospace flag a l (bool_eq_false ha)]
      exact okRun_cons_of_head a _ (bool_eq_false ha) (ih false)

theorem getLast?_cons_ne_nil (a : Char) {l : List Char} (h : l ≠ []) :
    (a :: l).getLast? = l.getLast? := by
  cases l with
  | nil => exact absurd rfl h
  | cons b l' => exact List.getLast?_cons_cons

theorem lastNotP_cons {p : Char → Bool} {a : Char} {l : List Char} (h : lastNotP p (a :: l))
    (hne : l ≠ []) : lastNotP p l := by
  intro c hc
  apply h c
  rw [getLast?_cons_ne_nil a hne]
  exact hc

theorem lastNotP_has_nospace {l : List Char} (h : lastNotP pySpace l) (hne : l ≠ []) :
    ∃ c ∈ l, pySpace c = false := by
  refine ⟨l.getLast hne, List.getLast_mem hne, ?_⟩
  exact h _ (List.getLast?_eq_getLast l hne)

theorem collapse_last_not (l : List Char) :
    ∀ flag, lastNotP pySpace l → lastNotP pySpace (collapseWSAux flag l) := by
  induction l with
  | nil => intro flag _ c hc; simp [collapseWSAux] at hc
  | cons a l ih =>
    intro flag hlast
    cases hl : l with
    | nil =>
      subst hl
      have ha := hlast a (by simp)
      rw [collapse_cons_nospace flag a [] ha]
      intro c hc
      have h0 : collapseWSAux false ([] : List Char) = [] := rfl
      rw [h0] at hc
      simp only [List.getLast?_singleton, Option.some.injEq] at hc
      subst hc
      exact ha
    | cons b l' =>
      subst hl
      have hlast' : lastNotP pySpace (b :: l') := lastNotP_cons hlast (by simp)
      by_cases ha : pySpace a = true
      · rw [collapse_cons_space flag a _ ha]
        have hx : lastNotP pySpace (collapseWSAux true (b :: l')) := ih true hlast'
        have hxne : collapseWSAux true (b :: l') ≠ [] := by
          intro h0
          obtain ⟨c, hcm, hcs⟩ := lastNotP_has_nospace hlast' (by simp)
          have := (collapse_true_eq_nil_iff (b :: l')).mp h0 c hcm
          rw [this] at hcs
          cases hcs
        by_cases hf : flag = true
        · rw [hf, if_pos rfl]
          exact hx
        · rw [if_neg hf]
          intro c hc
          rw [getLast?_cons_ne_nil ' ' hxne] at hc
          exact hx c hc
      · rw [collapse_cons_nospace flag a _ (bool_eq_false ha)]
        have hx : lastNotP pySpace (collapseWSAux false (b :: l')) := ih false hlast'
        have hxne : collapseWSAux false (b :: l') ≠ [] :=
          collapse_false_ne_nil _ (by simp)
        intro c hc
        rw [getLast?_cons_ne_nil a hxne] at hc
        exact hx c hc

theorem normalizeWS_head_not (l : List Char) : headNotP pySpace (normalizeWS l) :=
  collapse_false_head _ (pyStripBy_head_not pySpace l)

theorem normalizeWS_last_not (l : List Char) : lastNotP pySpace (normalizeWS l) :=
  collapse_last_not _ false (pyStripBy_last_not pySpace l)

theorem normalizeWS_wsOnly (l : List Char) :
    ∀ c ∈ normalizeWS l, pySpace c = true → c = ' ' :=
  fun c hc => collapse_wsOnly _ false c hc

theorem normalizeWS_okRun (l : List Char) : okRun (normalizeWS l) = true :=
  collapse_okRun _ false

theorem pyStrip_normalizeWS (l : List Char) : pyStrip (normalizeWS l) = normalizeWS l :=
  pyStripBy_eq_self _ _ (normalizeWS_head_not l) (normalizeWS_last_not l)

theorem normalizeWS_ne_nil (l : List Char) (h : pyStrip l ≠ []) : normalizeWS l ≠ [] :=
  collapse_false_ne_nil _ h

theorem normalizeWS_eq_nil (l : List Char) (h : pyStrip l = []) : normalizeWS l = [] := by
  unfold normalizeWS
  rw [show collapseWSAux false (pyStrip l) = collapseWSAux false [] from by rw [h]]
  rfl

theorem okRun_append_right (x y : List Char) (h : okRun (x ++ y) = true) :
    okRun y = true := by
  induction x with
  | nil => exact h
  | cons a x' ih =>
    apply ih
    exact okRun_tail a (x' ++ y) h

theorem okRun_append_left (x y : List Char) (h : okRun (x ++ y) = true) :
    okRun x = true := by
  induction x with
  | nil => rfl
  | cons a x' ih =>
    cases hx : x' with
    | nil => rfl
    | cons b x'' =>
      subst hx
      simp only [List.cons_append, okRun, Bool.and_eq_true] at h ⊢
      exact ⟨h.1, by
        have := ih (by
          have h2 := h.2
          simpa using h2)
        exact this⟩

theorem okRun_within {x y : List Char} (hxy : x <:+: y) (h : okRun y = true) :
    okRun x = true := by
  obtain ⟨s, t, rfl⟩ := hxy
  exact okRun_append_left x t (okRun_append_right s (x ++ t) (by rwa [← List.append_assoc]))

theorem findFirstMatch_eq (l : List Char) :
    ∀ m rem, findFirstMatch l = some (m, rem) →
      l = m ++ rem ∧ ∃ c ∈ m, isPunct c = true := by
  induction l with
  | nil => intro m rem h; simp [findFirstMatch] at h
  | cons a l ih =>
    intro m rem h
    rw [findFirstMatch] at h
    by_cases ha : isPunct a = true
    · rw [if_pos ha] at h
      cases hb : bestQuote l with
      | some j =>
        rw [hb] at h
        simp only [Option.some.injEq, Prod.mk.injEq] at h
        obtain ⟨hm, hrem⟩ := h
        subst hm
        subst hrem
        constructor
        · simp [List.take_append_drop]
        · exact ⟨a, List.mem_cons_self _ _, ha⟩
      | none =>
        rw [hb] at h
        cases hr : findFirstMatch l with
        | none => rw [hr] at h; cases h
        | some pr =>
          obtain ⟨m', rem'⟩ := pr
          rw [hr] at h
          simp only [Option.some.injEq, Prod.mk.injEq] at h
          obtain ⟨hm, hrem⟩ := h
          subst hm
          subst hrem
          obtain ⟨heq, c, hc, hpc⟩ := ih m' rem' hr
          exact ⟨by rw [List.cons_append, ← heq], c, List.mem_cons_of_mem a hc, hpc⟩
    · rw [if_neg ha] at h
      cases hr : findFirstMatch l with
      | none => rw [hr] at h; cases h
      | some pr =>
        obtain ⟨m', rem'⟩ := pr
        rw [hr] at h
        simp only [Option.some.injEq, Prod.mk.injEq] at h
        obtain ⟨hm, hrem⟩ := h
        subst hm
        subst hrem
        obtain ⟨heq, c, hc, hpc⟩ := ih m' rem' hr
        exact ⟨by rw [List.cons_append, ← heq], c, List.mem_cons_of_mem a hc, hpc⟩

theorem findAllF_within (fuel : Nat) :
    ∀ (l : List Char), ∀ m ∈ findAllF fuel l, m <:+: l := by
  induction fuel with
  | zero => intro l m hm; simp [findAllF] at hm
  | succ fuel ih =>
    intro l m hm
    rw [findAllF] at hm
    cases hf : findFirstMatch l with
    | none => rw [hf] at hm; cases hm
    | some pr =>
      obtain ⟨m0, rem⟩ := pr
      rw [hf] at hm
      obtain ⟨heq, -⟩ := findFirstMatch_eq l m0 rem hf
      rcases List.mem_cons.mp hm with rfl | hm'
      · rw [heq]
        exact (List.prefix_append m rem).isInfix
      · exact (ih rem m hm').trans (heq ▸ (List.suffix_append m0 rem).isInfix)

theorem findAllF_punct (fuel : Nat) :
    ∀ (l : List Char), ∀ m ∈ findAllF fuel l, ∃ c ∈ m, isPunct c = true := by
  induction fuel with
  | zero => intro l m hm; simp [findAllF] at hm
  | succ fuel ih =>
    intro l m hm
    rw [findAllF] at hm
    cases hf : findFirstMatch l with
    | none => rw [hf] at hm; cases hm
    | some pr =>
      obtain ⟨m0, rem⟩ := pr
      rw [hf] at hm
      rcases List.mem_cons.mp hm with rfl | hm'
      · exact (findFirstMatch_eq l m rem hf).2
      · exact ih rem m hm'

theorem punct_not_space {c : Char} (h : isPunct c = true) : pySpace c = false := by
  simp only [isPunct, Bool.or_eq_true, beq_iff_eq] at h
  rcases h with (h | h) | h <;> subst h <;> decide

theorem pyStrip_match_ne_nil {m : List Char} (hc : ∃ c ∈ m, isPunct c = true) :
    pyStrip m ≠ [] := by
  obtain ⟨c, hcm, hcp⟩ := hc
  exact pyStripBy_ne_nil pySpace hcm (punct_not_space hcp)

theorem mem_splitTail {t : List Char} {sents : List (List Char)} {s : List Char}
    (h : s ∈ splitTail t sents) :
    s ∈ sents ∨ (∃ k, s = pyStrip (t.drop k)) ∨ s = t := by
  unfold splitTail at h
  cases hg : sents.getLast? with
  | some lastS =>
    rw [hg] at h
    dsimp only at h
    split at h
    · rcases List.mem_append.mp h with hs | hs
      · exact Or.inl hs
      · exact Or.inr (Or.inl ⟨_, (List.mem_singleton.mp hs)⟩)
    · exact Or.inl h
  | none =>
    rw [hg] at h
    dsimp only at h
    split at h
    · exact Or.inr (Or.inr (List.mem_singleton.mp h))
    · cases h

theorem not_isEmpty_of_ne_nil {l : List Char} (h : l ≠ []) : (!l.isEmpty) = true := by
  cases hl : l.isEmpty
  · rfl
  · exact absurd (List.isEmpty_iff.mp hl) h

theorem subset_splitTail (t : List Char) (sents : List (List Char)) :
    ∀ s ∈ sents, s ∈ splitTail t sents := by
  intro s hs
  unfold splitTail
  cases hg : sents.getLast? with
  | none =>
    rw [List.getLast?_eq_none_iff] at hg
    subst hg
    cases hs
  | some lastS =>
    dsimp only
    split
    · exact List.mem_append_left _ hs
    · exact hs

theorem mem_split_structure {l s : List Char} (h : s ∈ split_sentences l) :
    s ≠ [] ∧ ((∃ x, x <:+: normalizeWS l ∧ s = pyStrip x) ∨ s = normalizeWS l) := by
  unfold split_sentences at h
  rw [List.mem_filter] at h
  obtain ⟨hmem, hne⟩ := h
  have hsne : s ≠ [] := by
    intro h0
    subst h0
    simp at hne
  refine ⟨hsne, ?_⟩
  rcases mem_splitTail hmem with hs | ⟨k, rfl⟩ | rfl
  · obtain ⟨x, hx, rfl⟩ := List.mem_map.mp hs
    exact Or.inl ⟨x, findAllF_within _ _ x hx, rfl⟩
  · exact Or.inl ⟨_, (List.drop_suffix k _).isInfix, rfl⟩
  · exact Or.inr rfl

theorem split_sentences_blank (l : List Char) (h : pyStrip l = []) :
    split_sentences l = [] := by
  unfold split_sentences
  rw [normalizeWS_eq_nil l h]
  rfl

theorem split_sentences_ne_nil {l : List Char} (h : pyStrip l ≠ []) :
    split_sentences l ≠ [] := by
  have ht : normalizeWS l ≠ [] := normalizeWS_ne_nil l h
  cases hfa : findAll (normalizeWS l) with
  | nil =>
    unfold split_sentences
    rw [hfa]
    simp only [List.map_nil]
    unfold splitTail
    simp only [List.getLast?_nil]
    rw [if_pos ht]
    intro hcon
    rw [List.filter_eq_nil_iff] at hcon
    have h2 := hcon (normalizeWS l) (List.mem_singleton.mpr rfl)
    rw [not_isEmpty_of_ne_nil ht] at h2
    exact h2 rfl
  | cons m ms =>
    intro hnil
    have hm : m ∈ findAll (normalizeWS l) := by
      rw [hfa]
      exact List.mem_cons_self _ _
    have hmne : pyStrip m ≠ [] := pyStrip_match_ne_nil (findAllF_punct _ _ m hm)
    have hmem : pyStrip m ∈ splitTail (normalizeWS l) ((findAll (normalizeWS l)).map pyStrip) :=
      subset_splitTail _ _ _ (List.mem_map_of_mem pyStrip hm)
    have hfin : pyStrip m ∈ split_sentences l := by
      unfold split_sentences
      rw [List.mem_filter]
      exact ⟨hmem, not_isEmpty_of_ne_nil hmne⟩
    rw [hnil] at hfin
    cases hfin

theorem split_sentences_no_match {l : List Char} (hfa : findAll (normalizeWS l) = [])
    (ht : normalizeWS l ≠ []) : split_sentences l = [normalizeWS l] := by
  unfold split_sentences
  rw [hfa]
  simp only [List.map_nil]
  unfold splitTail
  simp only [List.getLast?_nil]
  rw [if_pos ht]
  rw [List.filter_eq_self]
  intro a ha
  rw [List.mem_singleton.mp ha]
  exact not_isEmpty_of_ne_nil ht

theorem pyRstrip_front (l : List Char) : pyRstrip l <+: l := by
  unfold pyRstrip
  have h : List.dropWhile pySpace l.reverse <:+ l.reverse := List.dropWhile_suffix pySpace
  have h2 := List.reverse_prefix.mpr h
  rwa [List.reverse_reverse] at h2

theorem sentence_chars_ok :
    ∀ c ∈ "sentence".data, illegalChar c = false ∧ ctrlChar c = false := by decide

theorem sentence_head_not_dot : headNotP (fun c => c == '.') ("sentence".data) := by
  intro c hc
  simp only [show ("sentence".data).head? = some 's' from by decide,
    Option.some.injEq] at hc
  subst hc
  decide

theorem sentence_last_not_dot : lastNotP (fun c => c == '.') ("sentence".data) := by
  intro c hc
  simp only [show ("sentence".data).getLast? = some 'e' from by decide,
    Option.some.injEq] at hc
  subst hc
  decide

theorem map_illegal_ok (s : List Char) :
    ∀ c ∈ s.map (fun c => if illegalChar c then '_' else c), illegalChar c = false := by
  intro c hc
  obtain ⟨c', _, rfl⟩ := List.mem_map.mp hc
  by_cases h : illegalChar c' = true
  · rw [if_pos h]
    decide
  · rw [if_neg h]
    exact bool_eq_false h

theorem trunc_chars_ok (s4 : List Char) (max_len : Nat)
    (h4 : ∀ c ∈ s4, illegalChar c = false ∧ ctrlChar c = false) :
    ∀ c ∈ (if max_len < s4.length then pyRstrip (s4.take max_len) ++ ['…'] else s4),
      illegalChar c = false ∧ ctrlChar c = false := by
  intro c hc
  split at hc
  · rcases List.mem_append.mp hc with hcl | hcr
    · exact h4 c (List.take_subset _ _ ((pyRstrip_front _).subset hcl))
    · have hce : c = '…' := List.mem_singleton.mp hcr
      subst hce
      constructor <;> decide
  · exact h4 c hc

theorem sanitize_chars_ok (s : List Char) (max_len : Nat) :
    ∀ c ∈ sanitize_filename s max_len, illegalChar c = false ∧ ctrlChar c = false := by
  have hbase : ∀ c ∈ List.filter (fun c => !ctrlChar c)
      (List.map (fun c => if illegalChar c then '_' else c) s),
      illegalChar c = false ∧ ctrlChar c = false := by
    intro c hc2
    refine ⟨map_illegal_ok s c (List.mem_of_mem_filter hc2), ?_⟩
    have := List.of_mem_filter hc2
    simpa using this
  have h4 : ∀ c ∈ (if pyStripBy (fun c => c == '.')
        (pyStrip (List.filter (fun c => !ctrlChar c)
          (List.map (fun c => if illegalChar c then '_' else c) s))) = []
      then "sentence".data
      else pyStripBy (fun c => c == '.')
        (pyStrip (List.filter (fun c => !ctrlChar c)
          (List.map (fun c => if illegalChar c then '_' else c) s)))),
      illegalChar c = false ∧ ctrlChar c = false := by
    intro c hc
    split at hc
    · exact sentence_chars_ok c hc
    · exact hbase c ((pyStripBy_within _ _).subset ((pyStripBy_within _ _).subset hc))
  intro c hc
  unfold sanitize_filename at hc
  dsimp only at hc
  exact trunc_chars_ok _ max_len h4 c hc

theorem ite_trunc_head_not_dot {s4 : List Char} {max_len : Nat}
    (h1 : headNotP (fun c => c == '.') s4) :
    headNotP (fun c => c == '.')
      (if max_len < s4.length then pyRstrip (s4.take max_len) ++ ['…'] else s4) := by
  split
  · intro c hc
    cases hx : pyRstrip (s4.take max_len) with
    | nil =>
      rw [hx] at hc
      simp only [List.nil_append, List.head?_cons, Option.some.injEq] at hc
      subst hc
      decide
    | cons d ds =>
      rw [List.head?_append_of_ne_nil _ (by rw [hx]; simp)] at hc
      have hpre : pyRstrip (s4.take max_len) <+: s4 :=
        (pyRstrip_front _).trans (List.take_prefix _ _)
      exact headNot_of_pref _ hpre h1 c hc
  · exact h1

theorem ite_trunc_last_not_dot {s4 : List Char} {max_len : Nat}
    (h2 : lastNotP (fun c => c == '.') s4) :
    lastNotP (fun c => c == '.')
      (if max_len < s4.length then pyRstrip (s4.take max_len) ++ ['…'] else s4) := by
  split
  · intro c hc
    rw [List.getLast?_append_of_ne_nil _ (by simp)] at hc
    simp only [List.getLast?_singleton, Option.some.injEq] at hc
    subst hc
    decide
  · exact h2

theorem ite_trunc_ne_nil {s4 : List Char} {max_len : Nat} (hne : s4 ≠ []) :
    (if max_len < s4.length then pyRstrip (s4.take max_len) ++ ['…'] else s4) ≠ [] := by
  split
  · simp
  · exact hne

theorem trunc_length_le (s4 : List Char) (max_len : Nat) :
    (if max_len < s4.length then pyRstrip (s4.take max_len) ++ ['…'] else s4).length ≤
      max_len + 1 := by
  split
  · next h =>
    rw [List.length_append]
    have h1 : (pyRstrip (s4.take max_len)).length ≤ max_len := by
      calc (pyRstrip (s4.take max_len)).length
          ≤ (s4.take max_len).length := (pyRstrip_front _).length_le
        _ ≤ max_len := by
            rw [List.length_take]
            exact min_le_left _ _
    simpa using Nat.add_le_add_right h1 1
  · next h =>
    push_neg at h
    omega

theorem digitChar_val : ∀ m, m < 10 → (Nat.digitChar m).toNat - 48 = m := by decide

theorem charsToNat_snoc (x : List Char) (c : Char) :
    charsToNat (x ++ [c]) = 10 * charsToNat x + (c.toNat - 48) := by
  unfold charsToNat
  rw [List.foldl_append]
  rfl

theorem charsToNat_natToCharsF :
    ∀ (fuel n : Nat), n < 10 ^ fuel → charsToNat (natToCharsF fuel n) = n := by
  intro fuel
  induction fuel with
  | zero =>
    intro n h
    have hn0 : n = 0 := by
      simpa using Nat.lt_one_iff.mp (by simpa using h)
    subst hn0
    rfl
  | succ fuel ih =>
    intro n h
    rw [natToCharsF]
    by_cases h10 : n < 10
    · rw [if_pos h10]
      have hd := digitChar_val n h10
      unfold charsToNat
      simp only [List.foldl_cons, List.foldl_nil]
      omega
    · rw [if_neg h10]
      have hdiv : n / 10 < 10 ^ fuel := by
        rw [Nat.div_lt_iff_lt_mul (by norm_num)]
        rw [pow_succ] at h
        exact h
      rw [charsToNat_snoc, ih (n / 10) hdiv]
      have hm : (Nat.digitChar (n % 10)).toNat - 48 = n % 10 :=
        digitChar_val (n % 10) (Nat.mod_lt _ (by norm_num))
      omega

theorem n_lt_ten_pow (n : Nat) : n < 10 ^ (n + 1) :=
  calc n < 2 ^ n := Nat.lt_two_pow n
    _ ≤ 10 ^ n := Nat.pow_le_pow_left (by norm_num) n
    _ ≤ 10 ^ (n + 1) := Nat.pow_le_pow_right (by norm_num) (Nat.le_succ n)

theorem charsToNat_natToChars (n : Nat) : charsToNat (natToChars n) = n :=
  charsToNat_natToCharsF (n + 1) n (n_lt_ten_pow n)

theorem natToChars_injective : Function.Injective natToChars := by
  intro a b h
  have h2 := congrArg charsToNat h
  rwa [charsToNat_natToChars, charsToNat_natToChars] at h2

theorem mkCandidate_injective (stem : List Char) :
    Function.Injective (mkCandidate stem) := by
  intro a b h
  unfold mkCandidate at h
  simp only [List.append_assoc] at h
  have h2 := List.append_cancel_left h
  simp only [List.cons_append, List.nil_append, List.cons.injEq, true_and] at h2
  exact natToChars_injective (List.append_cancel_right h2)

theorem probe_spec (existing : Finset (List Char)) (stem : List Char) :
    ∀ (fuel start : Nat), (∃ k, k < fuel ∧ mkCandidate stem (start + k) ∉ existing) →
      (probe existing stem fuel start).2 ∉ existing ∧
      (probe existing stem fuel start).1 = insert (probe existing stem fuel start).2 existing ∧
      ∃ n, start ≤ n ∧ (probe existing stem fuel start).2 = mkCandidate stem n ∧
        ∀ m, start ≤ m → m < n → mkCandidate stem m ∈ existing := by
  intro fuel
  induction fuel with
  | zero =>
    intro start h
    obtain ⟨k, hk, -⟩ := h
    omega
  | succ fuel ih =>
    intro start h
    rw [probe]
    by_cases hmem : mkCandidate stem start ∈ existing
    · rw [if_pos hmem]
      have h' : ∃ k, k < fuel ∧ mkCandidate stem (start + 1 + k) ∉ existing := by
        obtain ⟨k, hk, hnk⟩ := h
        cases k with
        | zero =>
          rw [Nat.add_zero] at hnk
          exact absurd hmem hnk
        | succ k' =>
          refine ⟨k', by omega, ?_⟩
          have : start + 1 + k' = start + (k' + 1) := by omega
          rw [this]
          exact hnk
      obtain ⟨hni, hins, n, hn1, hn2, hn3⟩ := ih (start + 1) h'
      refine ⟨hni, hins, n, by omega, hn2, ?_⟩
      intro m hm1 hm2
      by_cases hms : m = start
      · subst hms
        exact hmem
      · exact hn3 m (by omega) hm2
    · rw [if_neg hmem]
      exact ⟨hmem, rfl, start, Nat.le_refl _, rfl, fun m h1 h2 => by omega⟩

theorem probe_exists_fresh (existing : Finset (List Char)) (stem : List Char) (start : Nat) :
    ∃ k, k < existing.card + 1 ∧ mkCandidate stem (start + k) ∉ existing := by
  by_contra hcon
  push_neg at hcon
  have hsub : (Finset.range (existing.card + 1)).image
      (fun k => mkCandidate stem (start + k)) ⊆ existing := by
    intro x hx
    obtain ⟨k, hk, rfl⟩ := Finset.mem_image.mp hx
    exact hcon k (Finset.mem_range.mp hk)
  have hcard := Finset.card_le_card hsub
  rw [Finset.card_image_of_injective _ (fun a b hab => by
    have := mkCandidate_injective stem hab
    omega)] at hcard
  rw [Finset.card_range] at hcard
  omega

theorem ensure_unique_spec (existing : Finset (List Char)) (b : List Char) :
    (ensure_unique_name existing b).2 ∉ existing ∧
    (ensure_unique_name existing b).1 =
      insert (ensure_unique_name existing b).2 existing := by
  unfold ensure_unique_name
  by_cases h : b ∈ existing
  · rw [if_pos h]
    obtain ⟨h1, h2, -⟩ :=
      probe_spec existing b (existing.card + 1) 2 (probe_exists_fresh existing b 2)
    exact ⟨h1, h2⟩
  · rw [if_neg h]
    exact ⟨h, rfl⟩

theorem allocate_nodup :
    ∀ (bs : List (List Char)) (used : Finset (List Char)),
      (allocate used bs).Nodup ∧ ∀ x ∈ allocate used bs, x ∉ used := by
  intro bs
  induction bs with
  | nil =>
    intro used
    constructor
    · exact List.nodup_nil
    · intro x hx
      cases hx
  | cons b bs ih =>
    intro used
    rw [allocate]
    obtain ⟨hfresh, hins⟩ := ensure_unique_spec used b
    obtain ⟨hnd, hnotin⟩ := ih (ensure_unique_name used b).1
    constructor
    · rw [List.nodup_cons]
      refine ⟨?_, hnd⟩
      intro hmem
      have h2 := hnotin _ hmem
      rw [hins] at h2
      exact h2 (Finset.mem_insert_self _ _)
    · intro x hx
      rcases List.mem_cons.mp hx with rfl | hx'
      · exact hfresh
      · intro hxu
        exact hnotin x hx' (hins ▸ Finset.mem_insert_of_mem hxu)

theorem synthAllGo_timeout (oracle : Nat → SynthOutcome) :
    ∀ (sents : List (List Char)) (used : Finset (List Char)) (i k : Nat),
      (∀ j, j < k → oracle (i + j) = SynthOutcome.ok) →
      oracle (i + k) = SynthOutcome.timeout →
      k < sents.length →
      synthAllGo oracle used i sents = SynthResult.timeoutErr := by
  intro sents
  induction sents with
  | nil =>
    intro used i k _ _ hk
    simp at hk
  | cons s rest ih =>
    intro used i k hok htime hk
    rw [synthAllGo]
    dsimp only
    cases k with
    | zero =>
      rw [Nat.add_zero] at htime
      rw [htime]
    | succ k' =>
      have h0 : oracle i = SynthOutcome.ok := by
        have := hok 0 (by omega)
        rwa [Nat.add_zero] at this
      rw [h0]
      have hrec := ih (ensure_unique_name used (sanitize_filename s 80)).1 (i + 1) k'
        (fun j hj => by
          have := hok (j + 1) (by omega)
          rwa [show i + (j + 1) = i + 1 + j from by omega] at this)
        (by rwa [show i + 1 + k' = i + (k' + 1) from by omega])
        (by simpa using hk)
      rw [hrec]

/-- C1: the claimed lossless-reconstruction invariant FAILS on the code. On the
input "a. ba.c" the matched sentences are exactly ["a."]; the trailing fragment
is then located with `text.rfind(sents[-1])`, which finds the LATER occurrence
of "a." inside "ba.c", so the code returns ["a.", "c"] and silently drops
"ba.": the character 'b' occurs in the normalized input but in no returned
sentence. The spec's intent (remainder after the matched sentences) makes this
a slip in the code, not in the claim. -/
theorem C1_rfind_loss :
    split_sentences ("a. ba.c".data) = ["a.".data, "c".data] ∧
    'b' ∈ normalizeWS ("a. ba.c".data) ∧
    (split_sentences ("a. ba.c".data)).all (fun s => !s.contains 'b') = true := by
  exact ⟨by decide, by decide, by decide⟩

/-- C5: the claimed idempotence FAILS on the code, through the same `rfind`
slip. On the quoted input below, the first run returns two sentences whose
second is `."y`; joining them with a single space creates a new later
occurrence of the final matched sentence `" ."`, so the second run's `rfind`
cuts the trailing fragment differently and returns a different list. -/
theorem C5_not_idempotent :
    split_sentences (joinSpace (split_sentences ("\" .\" x\" .\".\"y".data))) ≠
      split_sentences ("\" .\" x\" .\".\"y".data) := by decide

/-- C2 counterexample: the claim asserts the sanitized name has no leading or
trailing whitespace, but `strip().strip('.')` runs in that order, so stripping
the dots of ". a ." exposes the inner spaces: the result " a " is not equal to
its own whitespace-trimmed form. -/
theorem C2_counterexample :
    pyStrip (sanitize_filename (". a .".data) 80) ≠
      sanitize_filename (". a .".data) 80 := by decide

/-- C2 (amended): for every input, `sanitize_filename` returns a non-empty
string containing none of the characters replaced as illegal and no control
characters (code points 0-31), with no leading or trailing dot; leading or
trailing whitespace, however, can survive when trimming dots exposes it. -/
theorem C2_amended : ∀ (s : List Char),
    (∀ c ∈ sanitize_filename s 80, illegalChar c = false) ∧
    (∀ c ∈ sanitize_filename s 80, ctrlChar c = false) ∧
    headNotP (fun c => c == '.') (sanitize_filename s 80) ∧
    lastNotP (fun c => c == '.') (sanitize_filename s 80) ∧
    sanitize_filename s 80 ≠ [] := by
  intro s
  refine ⟨fun c hc => (sanitize_chars_ok s 80 c hc).1,
    fun c hc => (sanitize_chars_ok s 80 c hc).2, ?_, ?_, ?_⟩
  · unfold sanitize_filename
    dsimp only
    apply ite_trunc_head_not_dot
    split
    · exact sentence_head_not_dot
    · exact pyStripBy_head_not _ _
  · unfold sanitize_filename
    dsimp only
    apply ite_trunc_last_not_dot
    split
    · exact sentence_last_not_dot
    · exact pyStripBy_last_not _ _
  · unfold sanitize_filename
    dsimp only
    apply ite_trunc_ne_nil
    split
    · decide
    · next h => exact h

/-- C2 witness: concrete instance of the amended sanitizer invariants. -/
theorem C2_amended_witness :
    illegalChar 'a' = false ∧ ctrlChar 'a' = false ∧
    sanitize_filename (". a .".data) 80 ≠ [] :=
  ⟨(C2_amended (". a .".data)).1 'a' (by decide),
   (C2_amended (". a .".data)).2.1 'a' (by decide),
   (C2_amended (". a .".data)).2.2.2.2⟩

/-- C3 counterexample: with the default maximum of 80, an input of 81 'a's is
truncated to 80 characters and then the ellipsis is appended, so the result
has length 81, exceeding the claimed bound of 80. -/
theorem C3_counterexample :
    ¬(sanitize_filename (List.replicate 81 'a') 80).length ≤ 80 := by decide

/-- C3 (amended): the sanitized name's length is at most `max_len + 1`: the
code truncates to `max_len` and appends one ellipsis character on top. -/
theorem C3_amended : ∀ (s : List Char) (max_len : Nat),
    (sanitize_filename s max_len).length ≤ max_len + 1 := by
  intro s max_len
  unfold sanitize_filename
  dsimp only
  exact trunc_length_le _ _

/-- C4: names issued by `ensure_unique_name` against one shared used-names set
are pairwise distinct; a base name not in the set is returned unchanged; a
colliding base name receives the suffix " (n)" with the least fresh n ≥ 2
(every smaller candidate from 2 up is already used). Determinism is inherent:
the allocator is a pure function of the set and the input sequence. -/
theorem C4_allocator : ∀ (bs : List (List Char)),
    (allocate ∅ bs).Nodup ∧
    (∀ (used : Finset (List Char)) (b : List Char), b ∉ used →
      (ensure_unique_name used b).2 = b) ∧
    (∀ (used : Finset (List Char)) (b : List Char), b ∈ used →
      ∃ n, 2 ≤ n ∧ (ensure_unique_name used b).2 = mkCandidate b n ∧
        ∀ m, 2 ≤ m → m < n → mkCandidate b m ∈ used) := by
  intro bs
  refine ⟨(allocate_nodup bs ∅).1, ?_, ?_⟩
  · intro used b h
    unfold ensure_unique_name
    rw [if_neg h]
  · intro used b h
    unfold ensure_unique_name
    rw [if_pos h]
    obtain ⟨-, -, n, hn1, hn2, hn3⟩ :=
      probe_spec used b (used.card + 1) 2 (probe_exists_fresh used b 2)
    exact ⟨n, hn1, hn2, hn3⟩

/-- C4 witness: a duplicate base name "a" is first kept and then suffixed. -/
theorem C4_allocator_witness :
    (allocate ∅ ["a".data, "a".data]).Nodup ∧
    (ensure_unique_name ∅ ("a".data)).2 = "a".data ∧
    ∃ n, 2 ≤ n ∧
      (ensure_unique_name {("a".data)} ("a".data)).2 = mkCandidate ("a".data) n ∧
      ∀ m, 2 ≤ m → m < n →
        mkCandidate ("a".data) m ∈ ({("a".data)} : Finset (List Char)) :=
  ⟨(C4_allocator ["a".data, "a".data]).1,
   (C4_allocator []).2.1 ∅ ("a".data) (by simp),
   (C4_allocator []).2.2 {("a".data)} ("a".data) (Finset.mem_singleton_self _)⟩

/-- C6: splitting a blank string gives the empty list and conversely; a
non-blank string with no regex match at all yields the whole normalized text
as the single sentence (so non-blank input always yields a non-empty list). -/
theorem C6_blank_nonblank : ∀ (l : List Char),
    (pyStrip l = [] ↔ split_sentences l = []) ∧
    (findAll (normalizeWS l) = [] → normalizeWS l ≠ [] →
      split_sentences l = [normalizeWS l]) := by
  intro l
  refine ⟨⟨split_sentences_blank l, ?_⟩, fun h1 h2 => split_sentences_no_match h1 h2⟩
  intro h
  by_contra hne
  exact split_sentences_ne_nil hne h

/-- C6 witness: a blank and a matchless non-blank input. -/
theorem C6_blank_witness :
    split_sentences (" ".data) = [] ∧
    split_sentences ("abc".data) = [normalizeWS ("abc".data)] :=
  ⟨((C6_blank_nonblank (" ".data)).1).mp (by decide),
   (C6_blank_nonblank ("abc".data)).2 (by decide) (by decide)⟩

/-- C7 counterexample: the claimed output "A_B_ test" is wrong, because '?' is
itself in the illegal-character class and is replaced by '_' as well: the
splitter does not separate terminal punctuation from the sentence. -/
theorem C7_counterexample :
    sanitize_filename ("A/B: test?".data) 80 ≠ "A_B_ test".data := by decide

/-- C7 (amended): the sanitizer maps "A/B: test?" to exactly "A_B_ test_". -/
theorem C7_amended :
    sanitize_filename ("A/B: test?".data) 80 = "A_B_ test_".data := by decide

/-- C8: if every synthesis call before the k-th succeeds and the k-th call
(for an existing k-th sentence) times out, the run reports the Timeout error
and produces no archive: the handler stops before the ZIP stage, so no
`success` result (which is the only carrier of an archive) is possible. -/
theorem C8_timeout_no_archive :
    ∀ (oracle : Nat → SynthOutcome) (text : List Char) (k : Nat),
      (∀ j, j < k → oracle j = SynthOutcome.ok) →
      oracle k = SynthOutcome.timeout →
      k < (split_sentences text).length →
      run_model oracle text = RunResult.timeoutError ∧
      ∀ files, run_model oracle text ≠ RunResult.success files := by
  intro oracle text k hok ht hk
  have hne : split_sentences text ≠ [] := by
    intro h0
    rw [h0] at hk
    simp at hk
  have hgo := synthAllGo_timeout oracle (split_sentences text) ∅ 0 k
    (fun j hj => by simpa using hok j hj) (by simpa using ht) hk
  unfold run_model
  rw [if_neg hne, hgo]
  exact ⟨rfl, fun files h => by cases h⟩

/-- C8 witness: two sentences, the second synthesis call times out. -/
theorem C8_timeout_witness :
    run_model (fun j => if j = 1 then SynthOutcome.timeout else SynthOutcome.ok)
      ("A. B.".data) = RunResult.timeoutError := by
  refine (C8_timeout_no_archive _ _ 1 ?_ ?_ ?_).1
  · intro j hj
    have hj0 : j = 0 := by omega
    subst hj0
    rfl
  · rfl
  · decide

/-- C9: the probing loop of `ensure_unique_name` always terminates: among the
first `used.card + 1` candidates " (2)", " (3)", ... one is fresh (candidates
for distinct n are distinct strings, so a finite set cannot exhaust them), and
accordingly the returned name is never an already-used one. -/
theorem C9_probe_terminates : ∀ (used : Finset (List Char)) (base : List Char),
    (∃ k, k < used.card + 1 ∧ mkCandidate base (2 + k) ∉ used) ∧
    (ensure_unique_name used base).2 ∉ used :=
  fun used base => ⟨probe_exists_fresh used base 2, (ensure_unique_spec used base).1⟩

/-- C9 witness: instance at a one-element used set. -/
theorem C9_probe_witness :
    (∃ k, k < ({("a".data)} : Finset (List Char)).card + 1 ∧
      mkCandidate ("a".data) (2 + k) ∉ ({("a".data)} : Finset (List Char))) ∧
    (ensure_unique_name {("a".data)} ("a".data)).2 ∉
      ({("a".data)} : Finset (List Char)) :=
  C9_probe_terminates {("a".data)} ("a".data)

/-- C10: every returned sentence is non-empty, equals its own whitespace-trim,
contains no whitespace other than the plain space (hence no newline), and has
no two adjacent whitespace characters (no run longer than one space). -/
theorem C10_trimmed : ∀ (l s : List Char), s ∈ split_sentences l →
    s ≠ [] ∧ pyStrip s = s ∧ (∀ c ∈ s, pySpace c = true → c = ' ') ∧
      okRun s = true := by
  intro l s hs
  obtain ⟨hne, hstruct⟩ := mem_split_structure hs
  have key : pyStrip s = s ∧ s <:+: normalizeWS l := by
    rcases hstruct with ⟨x, hx, rfl⟩ | rfl
    · exact ⟨pyStripBy_idem pySpace x, (pyStripBy_within pySpace x).trans hx⟩
    · exact ⟨pyStrip_normalizeWS l, List.infix_refl _⟩
  refine ⟨hne, key.1, ?_, ?_⟩
  · intro c hc hcs
    exact normalizeWS_wsOnly l c (key.2.subset hc) hcs
  · exact okRun_within key.2 (normalizeWS_okRun l)

/-- C10 witness: the trailing fragment "Hi." of a concrete split. -/
theorem C10_trimmed_witness :
    "Hi.".data ≠ [] ∧ pyStrip ("Hi.".data) = "Hi.".data ∧
    (∀ c ∈ "Hi.".data, pySpace c = true → c = ' ') ∧
    okRun ("Hi.".data) = true :=
  C10_trimmed ("Hi.  yo".data) ("Hi.".data) (by decide)
